import Mathlib

/-!
Verification model of `builder/renderer.py` (Builder v1).

The renderer walks a template directory in sorted relative-path order,
classifies each file as UTF-8 text or binary by attempting a strict UTF-8
decode, copies binary and marker-free files byte-for-byte, and pushes
marker-containing text files through a strict-undefined substitution
engine, writing the result with LF newlines and the source permissions.

Files are byte lists (`List Nat`, values < 256); decoded text is a list
of Unicode scalar values (`List Nat`).  Fallible operations return
`Except` / `Option`.
-/

namespace Builder

/-- A Unicode scalar value: in range and not a surrogate. -/
def ScalarCp (u : Nat) : Prop := u < 0x110000 ∧ ¬(0xD800 ≤ u ∧ u ≤ 0xDFFF)

instance (u : Nat) : Decidable (ScalarCp u) := by
  unfold ScalarCp; infer_instance

/-- Standard UTF-8 encoding of one code point (1 to 4 bytes). -/
def utf8EncodeCp (u : Nat) : List Nat :=
  if u < 0x80 then [u]
  else if u < 0x800 then [0xC0 + u / 0x40, 0x80 + u % 0x40]
  else if u < 0x10000 then
    [0xE0 + u / 0x1000, 0x80 + (u / 0x40) % 0x40, 0x80 + u % 0x40]
  else
    [0xF0 + u / 0x40000, 0x80 + (u / 0x1000) % 0x40, 0x80 + (u / 0x40) % 0x40,
      0x80 + u % 0x40]

/-- UTF-8 encoding of a sequence of code points. -/
def utf8Encode : List Nat → List Nat
  | [] => []
  | u :: us => utf8EncodeCp u ++ utf8Encode us

/-- Strict UTF-8 decoding of a byte sequence to code points, rejecting
overlong forms, surrogates and out-of-range values, as CPython's strict
`utf-8` codec (used by `Path.read_text(encoding="utf-8")`) does.
Returns `none` exactly when the bytes are not valid UTF-8. -/
def utf8Decode : List Nat → Option (List Nat)
  | [] => some []
  | b :: l =>
    if b < 0x80 then (utf8Decode l).map (fun us => b :: us)
    else
      match l with
      | [] => none
      | c :: l2 =>
        if 0xC2 ≤ b ∧ b ≤ 0xDF then
          if 0x80 ≤ c ∧ c ≤ 0xBF then
            (utf8Decode l2).map (fun us => ((b - 0xC0) * 0x40 + (c - 0x80)) :: us)
          else none
        else
          match l2 with
          | [] => none
          | d :: l3 =>
            if ((b = 0xE0 ∧ 0xA0 ≤ c ∧ c ≤ 0xBF) ∨
                (0xE1 ≤ b ∧ b ≤ 0xEC ∧ 0x80 ≤ c ∧ c ≤ 0xBF) ∨
                (b = 0xED ∧ 0x80 ≤ c ∧ c ≤ 0x9F) ∨
                (0xEE ≤ b ∧ b ≤ 0xEF ∧ 0x80 ≤ c ∧ c ≤ 0xBF)) ∧
               0x80 ≤ d ∧ d ≤ 0xBF then
              (utf8Decode l3).map (fun us =>
                ((b - 0xE0) * 0x1000 + (c - 0x80) * 0x40 + (d - 0x80)) :: us)
            else
              match l3 with
              | [] => none
              | e :: l4 =>
                if ((b = 0xF0 ∧ 0x90 ≤ c ∧ c ≤ 0xBF) ∨
                    (0xF1 ≤ b ∧ b ≤ 0xF3 ∧ 0x80 ≤ c ∧ c ≤ 0xBF) ∨
                    (b = 0xF4 ∧ 0x80 ≤ c ∧ c ≤ 0x8F)) ∧
                   (0x80 ≤ d ∧ d ≤ 0xBF) ∧ (0x80 ≤ e ∧ e ≤ 0xBF) then
                  (utf8Decode l4).map (fun us =>
                    ((b - 0xF0) * 0x40000 + (c - 0x80) * 0x1000 +
                      (d - 0x80) * 0x40 + (e - 0x80)) :: us)
                else none

/-- Embeds `_is_binary_file` from `renderer.py`: a file is treated as
binary exactly when its byte content fails a strict UTF-8 decode
(`UnicodeDecodeError` from `read_text`). It looks only at the bytes. -/
def is_binary_content (content : List Nat) : Bool :=
  (utf8Decode content).isNone

/-- Spec-side characterisation of a valid UTF-8 byte string: a
concatenation of standard encodings of Unicode scalar values. -/
inductive ValidUtf8 : List Nat → Prop
  | nil : ValidUtf8 []
  | cons (u : Nat) (l : List Nat) : ScalarCp u → ValidUtf8 l →
      ValidUtf8 (utf8EncodeCp u ++ l)

/-- Python universal-newline translation performed by
`read_text(encoding="utf-8")` (default `newline=None`): CR LF and lone CR
both become LF in the decoded text. -/
def univNewlines : List Nat → List Nat
  | [] => []
  | [c] => if c = 13 then [10] else [c]
  | c :: d :: rest =>
    if c = 13 then
      if d = 10 then 10 :: univNewlines rest
      else 10 :: univNewlines (d :: rest)
    else c :: univNewlines (d :: rest)

/-- Does `pat` occur at the head of `l`? -/
def startsWith : List Nat → List Nat → Bool
  | [], _ => true
  | _ :: _, [] => false
  | p :: ps, x :: xs => if p = x then startsWith ps xs else false

/-- Does `pat` occur as a contiguous subsequence of `l`?  This is
Python's `pat in text` on strings. -/
def containsSeq (pat : List Nat) : List Nat → Bool
  | [] => startsWith pat []
  | x :: xs => startsWith pat (x :: xs) || containsSeq pat xs

/-- Code points of a Lean string literal (each char's scalar value). -/
def cp (s : String) : List Nat := s.data.map Char.toNat

/-- Embeds the marker test of `render_template_dir`:
the file goes through the substitution engine exactly when its decoded
text contains one of the opening delimiters `\x7b\x7b`, `\x7b%`, `\x7b#`. -/
def hasMarker (text : List Nat) : Bool :=
  containsSeq [123, 123] text || containsSeq [123, 37] text ||
    containsSeq [123, 35] text

/-- Failures of the substitution engine. -/
inductive JinjaError
  | undefinedVar (name : List Nat)
  | malformed
  | ctrlBlock
deriving DecidableEq

/-- ASCII whitespace inside a marker. -/
def isSpaceCp (c : Nat) : Bool := c = 32 || c = 9 || c = 10 || c = 13

/-- Characters of a plain variable identifier. -/
def isIdentCp (c : Nat) : Bool :=
  (65 ≤ c && c ≤ 90) || (97 ≤ c && c ≤ 122) || (48 ≤ c && c ≤ 57) || c = 95

/-- Strip leading and trailing whitespace. -/
def trimCp (l : List Nat) : List Nat :=
  ((l.dropWhile (fun c => isSpaceCp c)).reverse.dropWhile
    (fun c => isSpaceCp c)).reverse

/-- Split `l` at the first occurrence of the two-byte closing delimiter
`a b`: returns the part before it and the part after it. -/
def splitClose (a b : Nat) : List Nat → Option (List Nat × List Nat)
  | x :: y :: rest =>
    if x = a ∧ y = b then some ([], rest)
    else
      match splitClose a b (y :: rest) with
      | some (pre, post) => some (x :: pre, post)
      | none => none
  | _ => none

/-- First-match lookup in the render context (a Python dict has unique
keys, so this is exact dict lookup). -/
def ctxLookup (k : List Nat) : List (List Nat × List Nat) → Option (List Nat)
  | [] => none
  | (a, v) :: rest => if a = k then some v else ctxLookup k rest

/-- The render context: variable name to string value.
Modelled from the spec: the substitution engine's context is "an
immutable mapping from variable name (string) to value"; this model
covers the string-valued fragment. -/
abbrev Ctx := List (List Nat × List Nat)

/-- Modelled from the spec: the substitution engine (the third-party
templating library behind `env.from_string(text).render(**context)` is
not part of this repository).  Per the spec it resolves
`\x7b\x7b name \x7d\x7d` interpolations against the context by exact key with
strict-undefined semantics (a missing key is a hard failure, never an
empty string), strips `\x7b# ... #\x7d` comments to no output, and fails on
malformed marker syntax, e.g. an unterminated delimiter.  Control
blocks `\x7b% ... %\x7d` are outside the modelled fragment and reported as
`ctrlBlock`.  `fuel` bounds recursion; every call consumes at least one
input element, so `fuel = length + 1` always suffices. -/
def jinjaRenderF (ctx : Ctx) : Nat → List Nat → Except JinjaError (List Nat)
  | 0, _ => .error .malformed
  | _ + 1, [] => .ok []
  | fuel + 1, c :: rest =>
    if c = 123 then
      match rest with
      | [] => .ok [c]
      | d :: rest2 =>
        if d = 123 then
          match splitClose 125 125 rest2 with
          | none => .error .malformed
          | some (inner, after) =>
            if trimCp inner ≠ [] ∧ (trimCp inner).all (fun x => isIdentCp x) then
              match ctxLookup (trimCp inner) ctx with
              | some v => (jinjaRenderF ctx fuel after).map (fun out => v ++ out)
              | none => .error (.undefinedVar (trimCp inner))
            else .error .malformed
        else if d = 35 then
          match splitClose 35 125 rest2 with
          | none => .error .malformed
          | some (_, after) => jinjaRenderF ctx fuel after
        else if d = 37 then
          match splitClose 37 125 rest2 with
          | none => .error .malformed
          | some _ => .error .ctrlBlock
        else (jinjaRenderF ctx fuel rest).map (fun out => c :: out)
    else (jinjaRenderF ctx fuel rest).map (fun out => c :: out)

/-- Substitution over a whole text. -/
def jinjaRender (ctx : Ctx) (l : List Nat) : Except JinjaError (List Nat) :=
  jinjaRenderF ctx (l.length + 1) l

/-- One file of the template tree: its relative path (components, no
separators inside a component), whether reading it succeeds, its byte
content and its permission bits.  A template directory is a
`List FileEntry` whose order models the native `os.walk` enumeration
order of the underlying filesystem. -/
structure FileEntry where
  path : List String
  readable : Bool
  content : List Nat
  perm : Nat
deriving DecidableEq

/-- Canonical forward-slash relative path string, as
`str(p.relative_to(template_dir)).replace(os.sep, "/")` produces. -/
def canonPath (ps : List String) : String := String.intercalate "/" ps

/-- Sort key of a file: the code points of its canonical path string. -/
def canonKey (e : FileEntry) : List Nat := cp (canonPath e.path)

/-- Lexicographic order on code-point lists, which is exactly Python's
`str` comparison used by `files.sort(key=...)`. -/
def lexLt : List Nat → List Nat → Bool
  | [], [] => false
  | [], _ :: _ => true
  | _ :: _, [] => false
  | a :: as, b :: bs =>
    if a < b then true
    else if a = b then lexLt as bs
    else false

/-- Non-strict comparison of files by canonical path. -/
def fileLe (a b : FileEntry) : Bool := !lexLt (canonKey b) (canonKey a)

/-- Strict comparison of files by canonical path. -/
def fileLt (a b : FileEntry) : Bool := lexLt (canonKey a) (canonKey b)

/-- Insertion into a sorted list. -/
def insertBy (le : FileEntry → FileEntry → Bool) (x : FileEntry) :
    List FileEntry → List FileEntry
  | [] => [x]
  | y :: ys => if le x y then x :: y :: ys else y :: insertBy le x ys

/-- Insertion sort (a stable comparison sort, like Python's). -/
def sortBy (le : FileEntry → FileEntry → Bool) :
    List FileEntry → List FileEntry
  | [] => []
  | x :: xs => insertBy le x (sortBy le xs)

/-- Embeds `_iter_template_files`: all files under the template root,
sorted by the canonical forward-slash relative path string; the input
list order is the filesystem's native enumeration order. -/
def iter_template_files (l : List FileEntry) : List FileEntry :=
  sortBy fileLe l

/-- Are all keys pairwise different?  Holds of every real template tree:
two distinct files cannot share a relative path. -/
def allDiff : List (List Nat) → Bool
  | [] => true
  | k :: ks => ks.all (fun k2 => !(k == k2)) && allDiff ks

/-- How a file's destination bytes were produced. -/
inductive Outcome
  | rendered
  | copied
deriving DecidableEq

/-- A file materialised in the destination tree: relative path, bytes,
permission bits and per-file outcome. -/
structure Written where
  path : List String
  bytes : List Nat
  perm : Nat
  outcome : Outcome
deriving DecidableEq

/-- A run-aborting failure: `renderError rel cause` embeds
`RenderError(f"Failed rendering template file: \x7brel\x7d")` raised `from`
the substitution failure; `osError p` embeds an uncaught `OSError`
whose filename is the absolute path `p` of the file being read or
written. -/
inductive RenderFailure
  | renderError (rel : String) (cause : JinjaError)
  | osError (path : String)
deriving DecidableEq

/-- Embeds the `RenderResult` dataclass. -/
structure RenderResult where
  rendered_files : Nat
  copied_files : Nat
deriving DecidableEq

/-- The decoded, newline-translated text of a byte content (meaningful
when the content is valid UTF-8). -/
def decodedText (content : List Nat) : List Nat :=
  univNewlines ((utf8Decode content).getD [])

/-- A file the renderer routes through the substitution engine: valid
UTF-8 text whose decoded text contains a marker. -/
def isRenderedFile (e : FileEntry) : Bool :=
  !is_binary_content e.content && hasMarker (decodedText e.content)

/-- Processing of one file by the loop body of `render_template_dir`:
read (an unreadable file raises an uncaught `OSError` out of
`_is_binary_file`), copy byte-for-byte with `shutil.copy2` when binary,
otherwise re-read the text and either copy it byte-for-byte when it has
no marker, or render it and write the output UTF-8 encoded with
`newline="\n"` (no translation) and `copystat` permissions. -/
def processFile (tplRoot : String) (ctx : Ctx) (e : FileEntry) :
    Except RenderFailure Written :=
  if e.readable = false then
    .error (.osError (tplRoot ++ "/" ++ canonPath e.path))
  else
    match utf8Decode e.content with
    | none => .ok ⟨e.path, e.content, e.perm, .copied⟩
    | some us =>
      if hasMarker (univNewlines us) then
        match jinjaRender ctx (univNewlines us) with
        | .error je => .error (.renderError (canonPath e.path) je)
        | .ok out => .ok ⟨e.path, utf8Encode out, e.perm, .rendered⟩
      else .ok ⟨e.path, e.content, e.perm, .copied⟩

/-- The sequential loop of `render_template_dir` over the sorted file
list.  `wr` tells whether writing a given destination relative path
succeeds; a failed write raises an uncaught `OSError` naming the
absolute destination path.  On failure the run stops at once; the
returned list holds the files already written, in order, and is never
cleaned up. -/
def runFiles (tplRoot dstRoot : String) (wr : List String → Bool) (ctx : Ctx) :
    List FileEntry → Except (RenderFailure × List Written) (List Written)
  | [] => .ok []
  | e :: rest =>
    match processFile tplRoot ctx e with
    | .error f => .error (f, [])
    | .ok w =>
      if wr e.path then
        match runFiles tplRoot dstRoot wr ctx rest with
        | .error (f, ws) => .error (f, w :: ws)
        | .ok ws => .ok (w :: ws)
      else .error (.osError (dstRoot ++ "/" ++ canonPath e.path), [])

/-- Count of files that went through the substitution engine. -/
def countRendered (ws : List Written) : Nat :=
  ws.countP (fun w => decide (w.outcome = Outcome.rendered))

/-- Count of files copied byte-for-byte. -/
def countCopied (ws : List Written) : Nat :=
  ws.countP (fun w => decide (w.outcome = Outcome.copied))

/-- Embeds `render_template_dir`: enumerate the template files in
sorted canonical-path order, process them sequentially, abort on the
first failure (returning the failure and the files already written),
and on full success return the aggregate `RenderResult` with the files
written.  `tpl` is the template tree in native filesystem enumeration
order; `ctx` is the render context. -/
def render_template_dir (tplRoot dstRoot : String) (wr : List String → Bool)
    (tpl : List FileEntry) (ctx : Ctx) :
    Except (RenderFailure × List Written) (RenderResult × List Written) :=
  match runFiles tplRoot dstRoot wr ctx (iter_template_files tpl) with
  | .error p => .error p
  | .ok ws => .ok (⟨countRendered ws, countCopied ws⟩, ws)

/-- Relation between a template file and its materialised destination
file in a successful run. -/
def ProcOk (tplRoot : String) (ctx : Ctx) (wr : List String → Bool)
    (e : FileEntry) (w : Written) : Prop :=
  processFile tplRoot ctx e = .ok w ∧ wr e.path = true

/-! ### Order and sorting lemmas -/

theorem lexLt_iff : ∀ a b : List Nat, lexLt a b = true ↔ List.Lex (· < ·) a b
  | [], [] => by
    simp only [lexLt, Bool.false_eq_true, false_iff]
    intro h; cases h
  | [], x :: xs => by
    simp only [lexLt, true_iff]
    exact .nil
  | x :: xs, [] => by
    simp only [lexLt, Bool.false_eq_true, false_iff]
    intro h; cases h
  | a :: as, b :: bs => by
    simp only [lexLt]
    by_cases h1 : a < b
    · rw [if_pos h1]
      exact ⟨fun _ => .rel h1, fun _ => rfl⟩
    · rw [if_neg h1]
      by_cases h2 : a = b
      · subst h2
        rw [if_pos rfl]
        constructor
        · exact fun h => .cons ((lexLt_iff as bs).1 h)
        · intro h
          cases h with
          | cons h3 => exact (lexLt_iff as bs).2 h3
          | rel h3 => exact absurd h3 h1
      · rw [if_neg h2]
        simp only [Bool.false_eq_true, false_iff]
        intro h
        cases h with
        | cons h3 => exact absurd rfl h2
        | rel h3 => exact absurd h3 h1

theorem lexLt_asymm {a b : List Nat} (h1 : lexLt a b = true)
    (h2 : lexLt b a = true) : False := by
  have g1 := (lexLt_iff a b).1 h1
  have g2 := (lexLt_iff b a).1 h2
  exact irrefl_of (List.Lex (· < ·)) a (trans_of (List.Lex (· < ·)) g1 g2)

theorem lexLt_connex {a b : List Nat} (h : a ≠ b) :
    lexLt a b = true ∨ lexLt b a = true := by
  rcases @trichotomous_of (List Nat) (List.Lex (· < ·))
    (List.Lex.isTrichotomous _) a b with g | g | g
  · exact Or.inl ((lexLt_iff a b).2 g)
  · exact absurd g h
  · exact Or.inr ((lexLt_iff b a).2 g)

theorem fileLe_total (a b : FileEntry) : fileLe a b = true ∨ fileLe b a = true := by
  unfold fileLe
  by_cases h1 : lexLt (canonKey b) (canonKey a) = true
  · right
    by_cases h2 : lexLt (canonKey a) (canonKey b) = true
    · exact absurd h1 (fun hh => lexLt_asymm h2 hh)
    · simp [h2]
  · left; simp [h1]

theorem fileLe_antisymm_key {a b : FileEntry} (h1 : fileLe a b = true)
    (h2 : fileLe b a = true) : canonKey a = canonKey b := by
  unfold fileLe at h1 h2
  by_contra hne
  rcases lexLt_connex hne with g | g
  · rw [g] at h2; simp at h2
  · rw [g] at h1; simp at h1

theorem fileLe_trans {a b c : FileEntry} (h1 : fileLe a b = true)
    (h2 : fileLe b c = true) : fileLe a c = true := by
  unfold fileLe at h1 h2 ⊢
  simp only [Bool.not_eq_true'] at h1 h2 ⊢
  by_contra hca
  rw [Bool.not_eq_false] at hca
  by_cases hbc : canonKey b = canonKey c
  · rw [hbc] at h1
    rw [hca] at h1; cases h1
  · rcases lexLt_connex hbc with g | g
    · have t : lexLt (canonKey b) (canonKey a) = true :=
        (lexLt_iff _ _).2
          (trans_of (List.Lex (· < ·)) ((lexLt_iff _ _).1 g) ((lexLt_iff _ _).1 hca))
      rw [t] at h1; cases h1
    · rw [g] at h2; cases h2

theorem fileLe_of_not {a b : FileEntry} (h : ¬ fileLe a b = true) :
    fileLe b a = true := by
  rcases fileLe_total a b with g | g
  · exact absurd g h
  · exact g

theorem fileLt_of_le_ne {a b : FileEntry} (h1 : fileLe a b = true)
    (h2 : canonKey a ≠ canonKey b) : fileLt a b = true := by
  unfold fileLt
  rcases lexLt_connex h2 with g | g
  · exact g
  · unfold fileLe at h1; rw [g] at h1; simp at h1

theorem insertBy_perm (le : FileEntry → FileEntry → Bool) (x : FileEntry) :
    ∀ l : List FileEntry, (insertBy le x l).Perm (x :: l)
  | [] => List.Perm.refl _
  | y :: ys => by
    unfold insertBy
    by_cases h : le x y = true
    · rw [if_pos h]
    · rw [if_neg h]
      exact ((insertBy_perm le x ys).cons y).trans (List.Perm.swap x y ys)

theorem sortBy_perm (le : FileEntry → FileEntry → Bool) :
    ∀ l : List FileEntry, (sortBy le l).Perm l
  | [] => List.Perm.refl _
  | x :: xs => by
    unfold sortBy
    exact (insertBy_perm le x (sortBy le xs)).trans ((sortBy_perm le xs).cons x)

theorem mem_insertBy {le : FileEntry → FileEntry → Bool} {x e : FileEntry}
    {l : List FileEntry} (h : e ∈ insertBy le x l) : e = x ∨ e ∈ l := by
  have := (insertBy_perm le x l).mem_iff.1 h
  simpa using this

theorem insertBy_sorted {x : FileEntry} :
    ∀ {l : List FileEntry}, l.Pairwise (fun a b => fileLe a b = true) →
      (insertBy fileLe x l).Pairwise (fun a b => fileLe a b = true)
  | [], _ => by simp [insertBy]
  | y :: ys, h => by
    rw [List.pairwise_cons] at h
    unfold insertBy
    by_cases hxy : fileLe x y = true
    · rw [if_pos hxy]
      refine List.Pairwise.cons ?_ (List.Pairwise.cons h.1 h.2)
      intro e he
      rcases List.mem_cons.1 he with rfl | he2
      · exact hxy
      · exact fileLe_trans hxy (h.1 e he2)
    · rw [if_neg hxy]
      refine List.Pairwise.cons ?_ (insertBy_sorted h.2)
      intro e he
      rcases mem_insertBy he with rfl | he2
      · exact fileLe_of_not hxy
      · exact h.1 e he2

theorem sortBy_sorted :
    ∀ l : List FileEntry,
      (sortBy fileLe l).Pairwise (fun a b => fileLe a b = true)
  | [] => List.Pairwise.nil
  | x :: xs => by
    unfold sortBy
    exact insertBy_sorted (sortBy_sorted xs)

theorem pairwise_and {α : Type} {R S : α → α → Prop} :
    ∀ {l : List α}, l.Pairwise R → l.Pairwise S →
      l.Pairwise (fun a b => R a b ∧ S a b)
  | [], _, _ => List.Pairwise.nil
  | x :: xs, h1, h2 => by
    rw [List.pairwise_cons] at h1 h2
    exact List.Pairwise.cons (fun e he => ⟨h1.1 e he, h2.1 e he⟩)
      (pairwise_and h1.2 h2.2)

theorem allDiff_iff : ∀ {ks : List (List Nat)},
    allDiff ks = true ↔ ks.Pairwise (fun a b => a ≠ b)
  | [] => by simp [allDiff]
  | k :: ks => by
    simp only [allDiff, Bool.and_eq_true, List.all_eq_true, List.pairwise_cons]
    constructor
    · rintro ⟨h1, h2⟩
      refine ⟨fun e he heq => ?_, allDiff_iff.1 h2⟩
      have := h1 e he
      rw [heq] at this; simp at this
    · rintro ⟨h1, h2⟩
      refine ⟨fun e he => ?_, allDiff_iff.2 h2⟩
      have := h1 e he
      simpa using this

theorem keys_pairwise_of_allDiff {l : List FileEntry}
    (hd : allDiff (l.map canonKey) = true) :
    l.Pairwise (fun a b => canonKey a ≠ canonKey b) := by
  have := allDiff_iff.1 hd
  rwa [List.pairwise_map] at this

theorem key_inj_of_pairwise : ∀ {l : List FileEntry},
    l.Pairwise (fun a b => canonKey a ≠ canonKey b) →
      ∀ a ∈ l, ∀ b ∈ l, canonKey a = canonKey b → a = b
  | [], _, a, ha => absurd ha (List.not_mem_nil a)
  | x :: xs, hp, a, ha => by
    rw [List.pairwise_cons] at hp
    intro b hb heq
    rcases List.mem_cons.1 ha with rfl | ha2 <;>
      rcases List.mem_cons.1 hb with rfl | hb2
    · rfl
    · exact absurd heq (hp.1 b hb2)
    · exact absurd heq.symm (hp.1 a ha2)
    · exact key_inj_of_pairwise hp.2 a ha2 b hb2 heq

theorem key_inj_of_allDiff {l : List FileEntry}
    (hd : allDiff (l.map canonKey) = true) :
    ∀ a ∈ l, ∀ b ∈ l, canonKey a = canonKey b → a = b :=
  key_inj_of_pairwise (keys_pairwise_of_allDiff hd)

theorem allDiff_perm {l1 l2 : List FileEntry}
    (hp : l1.Perm l2) (hd : allDiff (l1.map canonKey) = true) :
    allDiff (l2.map canonKey) = true := by
  rw [allDiff_iff, List.pairwise_map]
  rw [allDiff_iff, List.pairwise_map] at hd
  exact (hp.pairwise_iff (fun h heq => h heq.symm)).1 hd

theorem sortBy_eq_of_perm {l1 l2 : List FileEntry}
    (hd : allDiff (l1.map canonKey) = true) (hp : l1.Perm l2) :
    sortBy fileLe l1 = sortBy fileLe l2 := by
  apply @List.Perm.eq_of_sorted FileEntry (fun a b => fileLe a b = true) _ _
  · intro a b ha hb hab hba
    have ha2 : a ∈ l1 := (sortBy_perm fileLe l1).mem_iff.1 ha
    have hb2 : b ∈ l1 := hp.mem_iff.2 ((sortBy_perm fileLe l2).mem_iff.1 hb)
    exact key_inj_of_allDiff hd a ha2 b hb2 (fileLe_antisymm_key hab hba)
  · exact sortBy_sorted l1
  · exact sortBy_sorted l2
  · exact ((sortBy_perm fileLe l1).trans hp).trans (sortBy_perm fileLe l2).symm

theorem sortBy_strict {l : List FileEntry}
    (hd : allDiff (l.map canonKey) = true) :
    (sortBy fileLe l).Pairwise (fun a b => fileLt a b = true) := by
  have h1 := sortBy_sorted l
  have h2 : (sortBy fileLe l).Pairwise (fun a b => canonKey a ≠ canonKey b) :=
    ((((sortBy_perm fileLe l).symm).pairwise_iff
      (fun h heq => h heq.symm)).1 (keys_pairwise_of_allDiff hd))
  exact (pairwise_and h1 h2).imp (fun h => fileLt_of_le_ne h.1 h.2)

/-! ### Run-loop lemmas -/

theorem except_isOk_iff {ε α : Type} (x : Except ε α) :
    x.isOk = true ↔ ∃ a, x = .ok a := by
  cases x with
  | error f => simp [Except.isOk, Except.toBool]
  | ok a => simp [Except.isOk, Except.toBool]

theorem runFiles_ok_forall2 {tR dR : String} {wr : List String → Bool}
    {ctx : Ctx} : ∀ {s : List FileEntry} {ws : List Written},
    runFiles tR dR wr ctx s = .ok ws → List.Forall₂ (ProcOk tR ctx wr) s ws
  | [], ws, h => by
    unfold runFiles at h
    injection h with h1
    exact h1 ▸ List.Forall₂.nil
  | e :: rest, ws, h => by
    unfold runFiles at h
    split at h
    · cases h
    · rename_i w hw
      split at h
      · rename_i hwr
        split at h
        · cases h
        · rename_i ws' hws'
          injection h with h1
          exact h1 ▸ List.Forall₂.cons ⟨hw, hwr⟩ (runFiles_ok_forall2 hws')
      · cases h

theorem all_ok_forall2 {tR : String} {wr : List String → Bool} {ctx : Ctx} :
    ∀ {pre : List FileEntry},
    (pre.all fun e => (processFile tR ctx e).isOk && wr e.path) = true →
    ∃ pws, List.Forall₂ (ProcOk tR ctx wr) pre pws
  | [], _ => ⟨[], List.Forall₂.nil⟩
  | e :: rest, h => by
    rw [List.all_cons, Bool.and_eq_true, Bool.and_eq_true] at h
    obtain ⟨⟨h1, h2⟩, h3⟩ := h
    obtain ⟨w, hw⟩ := (except_isOk_iff _).1 h1
    obtain ⟨pws, hpws⟩ := all_ok_forall2 h3
    exact ⟨w :: pws, List.Forall₂.cons ⟨hw, h2⟩ hpws⟩

theorem runFiles_cons_ok {tR dR : String} {wr : List String → Bool} {ctx : Ctx}
    {e : FileEntry} {rest : List FileEntry} {w : Written}
    (hw : processFile tR ctx e = .ok w) (hwr : wr e.path = true) :
    runFiles tR dR wr ctx (e :: rest) =
      match runFiles tR dR wr ctx rest with
      | .error (f, ws) => .error (f, w :: ws)
      | .ok ws => .ok (w :: ws) := by
  cases hr : runFiles tR dR wr ctx rest with
  | error p =>
    obtain ⟨f, ws⟩ := p
    conv_lhs => unfold runFiles
    rw [hw]
    simp only [hwr, if_true]
    rw [hr]
  | ok ws =>
    conv_lhs => unfold runFiles
    rw [hw]
    simp only [hwr, if_true]
    rw [hr]

theorem runFiles_append {tR dR : String} {wr : List String → Bool} {ctx : Ctx} :
    ∀ {pre : List FileEntry} {pws : List Written} (rest : List FileEntry),
    List.Forall₂ (ProcOk tR ctx wr) pre pws →
    runFiles tR dR wr ctx (pre ++ rest) =
      match runFiles tR dR wr ctx rest with
      | .error (f, ws) => .error (f, pws ++ ws)
      | .ok ws => .ok (pws ++ ws)
  | [], pws, rest, h => by
    rw [List.forall₂_nil_left_iff] at h
    subst h
    simp only [List.nil_append]
    cases hr : runFiles tR dR wr ctx rest with
    | error p =>
      obtain ⟨f, ws⟩ := p
      simp
    | ok ws => simp
  | e :: pre2, pws, rest, h => by
    rw [List.forall₂_cons_left_iff] at h
    obtain ⟨w, pws2, ⟨hw, hwr⟩, h2, rfl⟩ := h
    rw [List.cons_append, runFiles_cons_ok hw hwr, runFiles_append rest h2]
    cases hr : runFiles tR dR wr ctx rest with
    | error p =>
      obtain ⟨f, ws⟩ := p
      simp
    | ok ws => simp

theorem forall2_mem_right {R : FileEntry → Written → Prop} :
    ∀ {s : List FileEntry} {ws : List Written}, List.Forall₂ R s ws →
      ∀ a ∈ s, ∃ w ∈ ws, R a w
  | _, _, List.Forall₂.nil, a, ha => absurd ha (List.not_mem_nil a)
  | _, _, List.Forall₂.cons hr htail, a, ha => by
    rcases List.mem_cons.1 ha with rfl | ha2
    · exact ⟨_, List.mem_cons_self _ _, hr⟩
    · obtain ⟨w, hw1, hw2⟩ := forall2_mem_right htail a ha2
      exact ⟨w, List.mem_cons_of_mem _ hw1, hw2⟩

theorem decodedText_eq {c us : List Nat} (h : utf8Decode c = some us) :
    decodedText c = univNewlines us := by
  simp [decodedText, h]

theorem processFile_ok_fields {tR : String} {ctx : Ctx} {e : FileEntry}
    {w : Written} (h : processFile tR ctx e = .ok w) :
    (w.outcome = .rendered ↔ isRenderedFile e = true) ∧
      w.path = e.path ∧ w.perm = e.perm ∧ e.readable = true := by
  unfold processFile at h
  split at h
  · cases h
  · rename_i hrd
    rw [Bool.not_eq_false] at hrd
    split at h
    · rename_i hdec
      injection h with h1
      subst h1
      simp [isRenderedFile, is_binary_content, hdec, hrd]
    · rename_i us hdec
      split at h
      · rename_i hmk
        split at h
        · cases h
        · rename_i out hout
          injection h with h1
          subst h1
          simp [isRenderedFile, is_binary_content, hdec, hrd,
            decodedText_eq hdec, hmk]
      · rename_i hmk
        injection h with h1
        subst h1
        simp only [isRenderedFile, is_binary_content, hdec, Option.isNone_some,
          Bool.not_false, Bool.true_and, decodedText_eq hdec]
        simp [hmk, hrd]

theorem outcome_cases (o : Outcome) : o = .rendered ∨ o = .copied := by
  cases o
  · exact Or.inl rfl
  · exact Or.inr rfl

theorem forall2_counts {tR : String} {ctx : Ctx} {wr : List String → Bool} :
    ∀ {s : List FileEntry} {ws : List Written},
    List.Forall₂ (ProcOk tR ctx wr) s ws →
      countRendered ws = s.countP (fun e => isRenderedFile e) ∧
        countCopied ws = s.countP (fun e => !isRenderedFile e)
  | _, _, List.Forall₂.nil => ⟨rfl, rfl⟩
  | e :: _, w :: _, List.Forall₂.cons hr htail => by
    obtain ⟨ihr, ihc⟩ := forall2_counts htail
    obtain ⟨hiff, -, -, -⟩ := processFile_ok_fields hr.1
    unfold countRendered at ihr ⊢
    unfold countCopied at ihc ⊢
    rw [List.countP_cons, List.countP_cons, List.countP_cons, List.countP_cons,
      ihr, ihc]
    constructor
    · congr 1
      by_cases hb : isRenderedFile e = true
      · simp [hb, hiff.2 hb]
      · rw [Bool.not_eq_true] at hb
        have : ¬ w.outcome = Outcome.rendered := fun hh => by
          rw [hiff.1 hh] at hb; cases hb
        simp [hb, this]
    · congr 1
      by_cases hb : isRenderedFile e = true
      · have hwo : w.outcome = Outcome.rendered := hiff.2 hb
        have : ¬ w.outcome = Outcome.copied := by
          rw [hwo]; intro hh; cases hh
        simp [hb, this]
      · rw [Bool.not_eq_true] at hb
        have hwo : ¬ w.outcome = Outcome.rendered := fun hh => by
          rw [hiff.1 hh] at hb; cases hb
        have : w.outcome = Outcome.copied := by
          rcases outcome_cases w.outcome with hh | hh
          · exact absurd hh hwo
          · exact hh
        simp [hb, this]

theorem forall2_map_path {tR : String} {ctx : Ctx} {wr : List String → Bool} :
    ∀ {s : List FileEntry} {ws : List Written},
    List.Forall₂ (ProcOk tR ctx wr) s ws →
      ws.map Written.path = s.map FileEntry.path
  | _, _, List.Forall₂.nil => rfl
  | _ :: _, _ :: _, List.Forall₂.cons hr htail => by
    rw [List.map_cons, List.map_cons, forall2_map_path htail,
      (processFile_ok_fields hr.1).2.1]

theorem processFile_unreadable {tR : String} {ctx : Ctx} {e : FileEntry}
    (h : e.readable = false) :
    processFile tR ctx e = .error (.osError (tR ++ "/" ++ canonPath e.path)) := by
  unfold processFile
  rw [if_pos h]

theorem processFile_subst_error {tR : String} {ctx : Ctx} {e : FileEntry}
    {us : List Nat} {je : JinjaError} (hrd : e.readable = true)
    (hdec : utf8Decode e.content = some us)
    (hmk : hasMarker (univNewlines us) = true)
    (hje : jinjaRender ctx (univNewlines us) = .error je) :
    processFile tR ctx e = .error (.renderError (canonPath e.path) je) := by
  unfold processFile
  simp [hrd, hdec, hmk, hje]

theorem render_error_at {tR dR : String} {wr : List String → Bool} {ctx : Ctx}
    {tpl pre post : List FileEntry} {f : FileEntry} {err : RenderFailure}
    (hs : iter_template_files tpl = pre ++ f :: post)
    (hpre : (pre.all fun e => (processFile tR ctx e).isOk && wr e.path) = true)
    (hf : processFile tR ctx f = .error err) :
    ∃ ws, render_template_dir tR dR wr tpl ctx = .error (err, ws) ∧
      List.Forall₂ (ProcOk tR ctx wr) pre ws := by
  obtain ⟨pws, hpws⟩ := all_ok_forall2 hpre
  refine ⟨pws, ?_, hpws⟩
  unfold render_template_dir iter_template_files
  unfold iter_template_files at hs
  rw [hs, runFiles_append _ hpws]
  have hrun : runFiles tR dR wr ctx (f :: post) = .error (err, []) := by
    unfold runFiles
    rw [hf]
  rw [hrun]
  simp

theorem render_aborts {tR dR : String} {wr : List String → Bool} {ctx : Ctx}
    {tpl pre post : List FileEntry} {f : FileEntry}
    (hs : iter_template_files tpl = pre ++ f :: post)
    (hpre : (pre.all fun e => (processFile tR ctx e).isOk && wr e.path) = true)
    (hf : ¬ ((processFile tR ctx f).isOk && wr f.path) = true) :
    ∃ err ws, render_template_dir tR dR wr tpl ctx = .error (err, ws) ∧
      List.Forall₂ (ProcOk tR ctx wr) pre ws := by
  cases hpf : processFile tR ctx f with
  | error err =>
    obtain ⟨ws, h1, h2⟩ := render_error_at hs hpre hpf
    exact ⟨err, ws, h1, h2⟩
  | ok w =>
    have hwr : wr f.path = false := by
      rw [hpf] at hf
      revert hf
      cases hwf : wr f.path <;> simp [Except.isOk, Except.toBool]
    obtain ⟨pws, hpws⟩ := all_ok_forall2 hpre
    refine ⟨.osError (dR ++ "/" ++ canonPath f.path), pws, ?_, hpws⟩
    unfold render_template_dir iter_template_files
    unfold iter_template_files at hs
    rw [hs, runFiles_append _ hpws]
    have hrun : runFiles tR dR wr ctx (f :: post) =
        .error (.osError (dR ++ "/" ++ canonPath f.path), []) := by
      unfold runFiles
      rw [hpf]
      simp [hwr]
    rw [hrun]
    simp

theorem forall2_mem_left {R : FileEntry → Written → Prop} :
    ∀ {s : List FileEntry} {ws : List Written}, List.Forall₂ R s ws →
      ∀ w ∈ ws, ∃ a ∈ s, R a w
  | _, _, List.Forall₂.nil, w, hw => absurd hw (List.not_mem_nil w)
  | _, _, List.Forall₂.cons hr htail, w, hw => by
    rcases List.mem_cons.1 hw with rfl | hw2
    · exact ⟨_, List.mem_cons_self _ _, hr⟩
    · obtain ⟨a, ha1, ha2⟩ := forall2_mem_left htail w hw2
      exact ⟨a, List.mem_cons_of_mem _ ha1, ha2⟩

theorem processFile_copied {tR : String} {ctx : Ctx} {e : FileEntry}
    {w : Written} (h : processFile tR ctx e = .ok w)
    (hcl : is_binary_content e.content = true ∨
      hasMarker (decodedText e.content) = false) :
    w = ⟨e.path, e.content, e.perm, .copied⟩ := by
  unfold processFile at h
  split at h
  · cases h
  · split at h
    · injection h with h1
      exact h1.symm
    · rename_i us hdec
      have hmk : hasMarker (univNewlines us) = false := by
        rcases hcl with hb | hm
        · rw [is_binary_content, hdec] at hb
          cases hb
        · rwa [decodedText_eq hdec] at hm
      rw [hmk] at h
      simp only [Bool.false_eq_true, if_false] at h
      injection h with h1
      exact h1.symm

theorem render_ok_runFiles {tR dR : String} {wr : List String → Bool}
    {ctx : Ctx} {tpl : List FileEntry} {res : RenderResult} {ws : List Written}
    (hok : render_template_dir tR dR wr tpl ctx = .ok (res, ws)) :
    runFiles tR dR wr ctx (iter_template_files tpl) = .ok ws ∧
      res = ⟨countRendered ws, countCopied ws⟩ := by
  unfold render_template_dir at hok
  split at hok
  · cases hok
  · rename_i ws0 hrun
    injection hok with h1
    injection h1 with h2 h3
    subst h3
    exact ⟨hrun, h2.symm⟩

/-! ### UTF-8 decoder correctness against the encoding grammar -/

theorem decode_encode_cons {u : Nat} (hu : ScalarCp u) (l : List Nat) :
    utf8Decode (utf8EncodeCp u ++ l) =
      (utf8Decode l).map (fun us => u :: us) := by
  obtain ⟨hu1, hu2⟩ := hu
  by_cases h1 : u < 0x80
  · have hE : utf8EncodeCp u = [u] := by rw [utf8EncodeCp, if_pos h1]
    rw [hE]
    simp only [List.cons_append, List.nil_append]
    rw [utf8Decode.eq_def]
    simp only []
    rw [if_pos h1]
  · by_cases h2 : u < 0x800
    · have hE : utf8EncodeCp u = [0xC0 + u / 0x40, 0x80 + u % 0x40] := by
        rw [utf8EncodeCp, if_neg h1, if_pos h2]
      rw [hE]
      simp only [List.cons_append, List.nil_append]
      rw [utf8Decode.eq_def]
      simp only []
      rw [if_neg (by omega : ¬ (0xC0 + u / 0x40 < 0x80)),
        if_pos (by omega : 0xC2 ≤ 0xC0 + u / 0x40 ∧ 0xC0 + u / 0x40 ≤ 0xDF),
        if_pos (by omega : 0x80 ≤ 0x80 + u % 0x40 ∧ 0x80 + u % 0x40 ≤ 0xBF)]
      simp only [show (0xC0 + u / 0x40 - 0xC0) * 0x40 + (0x80 + u % 0x40 - 0x80)
        = u from by omega]
    · by_cases h3 : u < 0x10000
      · have hE : utf8EncodeCp u =
            [0xE0 + u / 0x1000, 0x80 + (u / 0x40) % 0x40, 0x80 + u % 0x40] := by
          rw [utf8EncodeCp, if_neg h1, if_neg h2, if_pos h3]
        rw [hE]
        simp only [List.cons_append, List.nil_append]
        rw [utf8Decode.eq_def]
        simp only []
        rw [if_neg (by omega : ¬ (0xE0 + u / 0x1000 < 0x80)),
          if_neg (by omega :
            ¬ (0xC2 ≤ 0xE0 + u / 0x1000 ∧ 0xE0 + u / 0x1000 ≤ 0xDF)),
          if_pos (by omega :
            ((0xE0 + u / 0x1000 = 0xE0 ∧ 0xA0 ≤ 0x80 + (u / 0x40) % 0x40 ∧
                0x80 + (u / 0x40) % 0x40 ≤ 0xBF) ∨
              (0xE1 ≤ 0xE0 + u / 0x1000 ∧ 0xE0 + u / 0x1000 ≤ 0xEC ∧
                0x80 ≤ 0x80 + (u / 0x40) % 0x40 ∧
                0x80 + (u / 0x40) % 0x40 ≤ 0xBF) ∨
              (0xE0 + u / 0x1000 = 0xED ∧ 0x80 ≤ 0x80 + (u / 0x40) % 0x40 ∧
                0x80 + (u / 0x40) % 0x40 ≤ 0x9F) ∨
              (0xEE ≤ 0xE0 + u / 0x1000 ∧ 0xE0 + u / 0x1000 ≤ 0xEF ∧
                0x80 ≤ 0x80 + (u / 0x40) % 0x40 ∧
                0x80 + (u / 0x40) % 0x40 ≤ 0xBF)) ∧
              0x80 ≤ 0x80 + u % 0x40 ∧ 0x80 + u % 0x40 ≤ 0xBF)]
        simp only [show (0xE0 + u / 0x1000 - 0xE0) * 0x1000 +
          (0x80 + (u / 0x40) % 0x40 - 0x80) * 0x40 + (0x80 + u % 0x40 - 0x80)
          = u from by omega]
      · have hE : utf8EncodeCp u =
            [0xF0 + u / 0x40000, 0x80 + (u / 0x1000) % 0x40,
              0x80 + (u / 0x40) % 0x40, 0x80 + u % 0x40] := by
          rw [utf8EncodeCp, if_neg h1, if_neg h2, if_neg h3]
        rw [hE]
        simp only [List.cons_append, List.nil_append]
        rw [utf8Decode.eq_def]
        simp only []
        rw [if_neg (by omega : ¬ (0xF0 + u / 0x40000 < 0x80)),
          if_neg (by omega :
            ¬ (0xC2 ≤ 0xF0 + u / 0x40000 ∧ 0xF0 + u / 0x40000 ≤ 0xDF)),
          if_neg (by omega :
            ¬ (((0xF0 + u / 0x40000 = 0xE0 ∧ 0xA0 ≤ 0x80 + (u / 0x1000) % 0x40 ∧
                0x80 + (u / 0x1000) % 0x40 ≤ 0xBF) ∨
              (0xE1 ≤ 0xF0 + u / 0x40000 ∧ 0xF0 + u / 0x40000 ≤ 0xEC ∧
                0x80 ≤ 0x80 + (u / 0x1000) % 0x40 ∧
                0x80 + (u / 0x1000) % 0x40 ≤ 0xBF) ∨
              (0xF0 + u / 0x40000 = 0xED ∧ 0x80 ≤ 0x80 + (u / 0x1000) % 0x40 ∧
                0x80 + (u / 0x1000) % 0x40 ≤ 0x9F) ∨
              (0xEE ≤ 0xF0 + u / 0x40000 ∧ 0xF0 + u / 0x40000 ≤ 0xEF ∧
                0x80 ≤ 0x80 + (u / 0x1000) % 0x40 ∧
                0x80 + (u / 0x1000) % 0x40 ≤ 0xBF)) ∧
              0x80 ≤ 0x80 + (u / 0x40) % 0x40 ∧ 0x80 + (u / 0x40) % 0x40 ≤ 0xBF)),
          if_pos (by omega :
            ((0xF0 + u / 0x40000 = 0xF0 ∧ 0x90 ≤ 0x80 + (u / 0x1000) % 0x40 ∧
                0x80 + (u / 0x1000) % 0x40 ≤ 0xBF) ∨
              (0xF1 ≤ 0xF0 + u / 0x40000 ∧ 0xF0 + u / 0x40000 ≤ 0xF3 ∧
                0x80 ≤ 0x80 + (u / 0x1000) % 0x40 ∧
                0x80 + (u / 0x1000) % 0x40 ≤ 0xBF) ∨
              (0xF0 + u / 0x40000 = 0xF4 ∧ 0x80 ≤ 0x80 + (u / 0x1000) % 0x40 ∧
                0x80 + (u / 0x1000) % 0x40 ≤ 0x8F)) ∧
              (0x80 ≤ 0x80 + (u / 0x40) % 0x40 ∧ 0x80 + (u / 0x40) % 0x40 ≤ 0xBF) ∧
              (0x80 ≤ 0x80 + u % 0x40 ∧ 0x80 + u % 0x40 ≤ 0xBF))]
        simp only [show (0xF0 + u / 0x40000 - 0xF0) * 0x40000 +
          (0x80 + (u / 0x1000) % 0x40 - 0x80) * 0x1000 +
          (0x80 + (u / 0x40) % 0x40 - 0x80) * 0x40 + (0x80 + u % 0x40 - 0x80)
          = u from by omega]

theorem decode_sound : ∀ (n : Nat) (s : List Nat), s.length ≤ n →
    ∀ us, utf8Decode s = some us → ValidUtf8 s := by
  intro n
  induction n with
  | zero =>
    intro s hs us h
    have h0 : s = [] := List.length_eq_zero.1 (Nat.le_zero.1 hs)
    subst h0
    exact .nil
  | succ n ih =>
    intro s hs us h
    cases s with
    | nil => exact .nil
    | cons b l =>
      rw [utf8Decode.eq_def] at h
      simp only [] at h
      simp only [List.length_cons] at hs
      split at h
      · rename_i h1
        rw [Option.map_eq_some'] at h
        obtain ⟨us2, hus2, -⟩ := h
        have hvl : ValidUtf8 l := ih l (by omega) us2 hus2
        have hb : b :: l = utf8EncodeCp b ++ l := by
          rw [utf8EncodeCp, if_pos h1]
          rfl
        rw [hb]
        exact .cons b l ⟨by omega, by omega⟩ hvl
      · rename_i h1
        split at h
        · exact absurd h (by simp)
        · rename_i c l2
          simp only [List.length_cons] at hs
          split at h
          · rename_i h2
            split at h
            · rename_i h3
              rw [Option.map_eq_some'] at h
              obtain ⟨us2, hus2, -⟩ := h
              have hvl : ValidUtf8 l2 := ih l2 (by omega) us2 hus2
              have henc : utf8EncodeCp ((b - 0xC0) * 0x40 + (c - 0x80)) =
                  [b, c] := by
                rw [utf8EncodeCp, if_neg (by omega), if_pos (by omega)]
                simp only [List.cons.injEq, and_true]
                omega
              have hcast : b :: c :: l2 =
                  utf8EncodeCp ((b - 0xC0) * 0x40 + (c - 0x80)) ++ l2 := by
                rw [henc]
                rfl
              rw [hcast]
              exact .cons _ l2 ⟨by omega, by omega⟩ hvl
            · exact absurd h (by simp)
          · rename_i h2
            split at h
            · exact absurd h (by simp)
            · rename_i d l3
              simp only [List.length_cons] at hs
              split at h
              · rename_i h3
                rw [Option.map_eq_some'] at h
                obtain ⟨us2, hus2, -⟩ := h
                have hvl : ValidUtf8 l3 := ih l3 (by omega) us2 hus2
                have henc : utf8EncodeCp
                    ((b - 0xE0) * 0x1000 + (c - 0x80) * 0x40 + (d - 0x80)) =
                    [b, c, d] := by
                  rw [utf8EncodeCp, if_neg (by omega), if_neg (by omega),
                    if_pos (by omega)]
                  simp only [List.cons.injEq, and_true]
                  omega
                have hcast : b :: c :: d :: l3 =
                    utf8EncodeCp
                      ((b - 0xE0) * 0x1000 + (c - 0x80) * 0x40 + (d - 0x80)) ++
                      l3 := by
                  rw [henc]
                  rfl
                rw [hcast]
                exact .cons _ l3 ⟨by omega, by omega⟩ hvl
              · rename_i h3
                split at h
                · exact absurd h (by simp)
                · rename_i e4 l4
                  simp only [List.length_cons] at hs
                  split at h
                  · rename_i h4
                    rw [Option.map_eq_some'] at h
                    obtain ⟨us2, hus2, -⟩ := h
                    have hvl : ValidUtf8 l4 := ih l4 (by omega) us2 hus2
                    have henc : utf8EncodeCp
                        ((b - 0xF0) * 0x40000 + (c - 0x80) * 0x1000 +
                          (d - 0x80) * 0x40 + (e4 - 0x80)) = [b, c, d, e4] := by
                      rw [utf8EncodeCp, if_neg (by omega), if_neg (by omega),
                        if_neg (by omega)]
                      simp only [List.cons.injEq, and_true]
                      omega
                    have hcast : b :: c :: d :: e4 :: l4 =
                        utf8EncodeCp
                          ((b - 0xF0) * 0x40000 + (c - 0x80) * 0x1000 +
                            (d - 0x80) * 0x40 + (e4 - 0x80)) ++ l4 := by
                      rw [henc]
                      rfl
                    rw [hcast]
                    exact .cons _ l4 ⟨by omega, by omega⟩ hvl
                  · exact absurd h (by simp)

theorem valid_decode {s : List Nat} (h : ValidUtf8 s) :
    ∃ us, utf8Decode s = some us := by
  induction h with
  | nil => exact ⟨[], rfl⟩
  | cons u l hu _ ih =>
    obtain ⟨us, hus⟩ := ih
    refine ⟨u :: us, ?_⟩
    rw [decode_encode_cons hu, hus]
    rfl

/-! ### Newline, substitution-output and delimiter-scanning lemmas -/

theorem univNewlines_no_cr : ∀ l : List Nat, ¬ (13 ∈ univNewlines l)
  | [] => by simp [univNewlines]
  | [c] => by
    by_cases h : c = 13 <;> simp [univNewlines, h] <;> omega
  | c :: d :: rest => by
    have ih1 := univNewlines_no_cr rest
    have ih2 := univNewlines_no_cr (d :: rest)
    by_cases h : c = 13
    · by_cases h2 : d = 10 <;> simp [univNewlines, h, h2, ih1, ih2]
    · simp only [univNewlines, if_neg h, List.mem_cons]
      intro hc
      rcases hc with hc | hc
      · omega
      · exact ih2 hc

theorem mem_utf8EncodeCp_cr (u : Nat) : (13 ∈ utf8EncodeCp u) ↔ 13 = u := by
  unfold utf8EncodeCp
  split_ifs with h1 h2 h3 <;> simp [List.mem_cons] <;> omega

theorem mem_utf8Encode_cr : ∀ us : List Nat, (13 ∈ utf8Encode us) ↔ 13 ∈ us
  | [] => by simp [utf8Encode]
  | u :: us => by
    simp only [utf8Encode, List.mem_append, List.mem_cons,
      mem_utf8EncodeCp_cr, mem_utf8Encode_cr us]

theorem ctxLookup_mem : ∀ {k v : List Nat} {ctx : Ctx},
    ctxLookup k ctx = some v → (k, v) ∈ ctx
  | k, v, [], h => by cases h
  | k, v, (a, w) :: rest, h => by
    rw [ctxLookup] at h
    split at h
    · rename_i ha
      injection h with h1
      subst ha h1
      exact List.mem_cons_self _ _
    · exact List.mem_cons_of_mem _ (ctxLookup_mem h)

theorem except_map_ok {ε α β : Type} {f : α → β} {e : Except ε α} {b : β} :
    Except.map f e = .ok b ↔ ∃ a, e = .ok a ∧ f a = b := by
  cases e with
  | error x =>
    simp only [Except.map]
    constructor
    · intro h; cases h
    · rintro ⟨a, h, -⟩; cases h
  | ok a =>
    simp only [Except.map]
    constructor
    · intro h
      injection h with h1
      exact ⟨a, rfl, h1⟩
    · rintro ⟨a2, h1, h2⟩
      injection h1 with h1
      rw [← h2, h1]

theorem splitClose_post_mem : ∀ (a b : Nat) (l : List Nat) {pre post : List Nat},
    splitClose a b l = some (pre, post) → ∀ x ∈ post, x ∈ l
  | a, b, [], pre, post, h => by cases h
  | a, b, [y], pre, post, h => by cases h
  | a, b, x :: y :: rest, pre, post, h => by
    simp only [splitClose] at h
    split at h
    · injection h with h1
      injection h1 with h2 h3
      subst h3
      intro z hz
      exact List.mem_cons_of_mem _ (List.mem_cons_of_mem _ hz)
    · split at h
      · rename_i pre2 post2 hsp
        injection h with h1
        injection h1 with h2 h3
        subst h3
        intro z hz
        exact List.mem_cons_of_mem _ (splitClose_post_mem a b (y :: rest) hsp z hz)
      · cases h

theorem splitClose_shorter : ∀ (a b : Nat) (l : List Nat) {pre post : List Nat},
    splitClose a b l = some (pre, post) → post.length + 2 ≤ l.length
  | a, b, [], pre, post, h => by cases h
  | a, b, [y], pre, post, h => by cases h
  | a, b, x :: y :: rest, pre, post, h => by
    simp only [splitClose] at h
    split at h
    · injection h with h1
      injection h1 with h2 h3
      subst h3
      simp
    · split at h
      · rename_i pre2 post2 hsp
        injection h with h1
        injection h1 with h2 h3
        subst h3
        have := splitClose_shorter a b (y :: rest) hsp
        simp only [List.length_cons] at this ⊢
        omega
      · cases h

theorem containsSeq_false_tail {pat x : Nat} {ps xs : List Nat}
    (h : containsSeq (pat :: ps) (x :: xs) = false) :
    containsSeq (pat :: ps) xs = false := by
  rw [containsSeq, Bool.or_eq_false_iff] at h
  exact h.2

theorem containsSeq_false_head {pat x : Nat} {ps xs : List Nat}
    (h : containsSeq (pat :: ps) (x :: xs) = false) :
    startsWith (pat :: ps) (x :: xs) = false := by
  rw [containsSeq, Bool.or_eq_false_iff] at h
  exact h.1

theorem splitClose_none : ∀ (a b : Nat) (l : List Nat),
    containsSeq [a, b] l = false → splitClose a b l = none
  | a, b, [], _ => rfl
  | a, b, [x], _ => rfl
  | a, b, x :: y :: rest, h => by
    have h1 := containsSeq_false_head h
    have h2 := containsSeq_false_tail h
    simp only [splitClose]
    rw [if_neg ?_, splitClose_none a b (y :: rest) h2]
    intro hc
    obtain ⟨rfl, rfl⟩ := hc
    simp [startsWith] at h1

/-- An output code point of a successful substitution comes either from
the input text or from one of the context's values. -/
theorem jinjaRenderF_mem {ctx : Ctx} : ∀ (fuel : Nat) (l out : List Nat),
    jinjaRenderF ctx fuel l = .ok out →
    ∀ x ∈ out, x ∈ l ∨ ∃ kv ∈ ctx, x ∈ kv.2 := by
  intro fuel
  induction fuel with
  | zero => intro l out h; cases h
  | succ fuel ih =>
    intro l out h x hx
    cases l with
    | nil =>
      simp only [jinjaRenderF] at h
      injection h with h1
      subst h1
      cases hx
    | cons c rest =>
      simp only [jinjaRenderF] at h
      split at h
      · rename_i hc
        split at h
        · injection h with h1
          subst h1
          exact Or.inl (by simpa using hx)
        · rename_i d rest2
          split at h
          · rename_i hd
            split at h
            · cases h
            · rename_i inner after hsp
              split at h
              · split at h
                · rename_i v hv
                  rw [except_map_ok] at h
                  obtain ⟨out2, hout2, hfo⟩ := h
                  subst hfo
                  rcases List.mem_append.1 hx with hxv | hxo
                  · exact Or.inr ⟨_, ctxLookup_mem hv, hxv⟩
                  · rcases ih after out2 hout2 x hxo with hxa | hctx
                    · exact Or.inl (List.mem_cons_of_mem _
                        (List.mem_cons_of_mem _
                          (splitClose_post_mem 125 125 rest2 hsp x hxa)))
                    · exact Or.inr hctx
                · cases h
              · cases h
          · split at h
            · rename_i hd2
              split at h
              · cases h
              · rename_i inner after hsp
                rcases ih after out h x hx with hxa | hctx
                · exact Or.inl (List.mem_cons_of_mem _
                    (List.mem_cons_of_mem _
                      (splitClose_post_mem 35 125 rest2 hsp x hxa)))
                · exact Or.inr hctx
            · split at h
              · split at h
                · cases h
                · cases h
              · rw [except_map_ok] at h
                obtain ⟨out2, hout2, hfo⟩ := h
                subst hfo
                rcases List.mem_cons.1 hx with rfl | hxo
                · exact Or.inl (List.mem_cons_self _ _)
                · rcases ih (d :: rest2) out2 hout2 x hxo with hxr | hctx
                  · exact Or.inl (List.mem_cons_of_mem _ hxr)
                  · exact Or.inr hctx
      · rw [except_map_ok] at h
        obtain ⟨out2, hout2, hfo⟩ := h
        subst hfo
        rcases List.mem_cons.1 hx with rfl | hxo
        · exact Or.inl (List.mem_cons_self _ _)
        · rcases ih rest out2 hout2 x hxo with hxr | hctx
          · exact Or.inl (List.mem_cons_of_mem _ hxr)
          · exact Or.inr hctx

/-- A text containing the opening interpolation delimiter but no
closing one, no comment opener and no control opener, always fails
substitution with a malformed-marker error. -/
theorem jinjaRenderF_unmatched {ctx : Ctx} : ∀ (fuel : Nat) (l : List Nat),
    l.length < fuel →
    containsSeq [123, 123] l = true → containsSeq [125, 125] l = false →
    containsSeq [123, 35] l = false → containsSeq [123, 37] l = false →
    jinjaRenderF ctx fuel l = .error .malformed := by
  intro fuel
  induction fuel with
  | zero => intro l hf; omega
  | succ fuel ih =>
    intro l hf hoo hcc hcm hct
    cases l with
    | nil => simp [containsSeq, startsWith] at hoo
    | cons c rest =>
      cases rest with
      | nil => simp [containsSeq, startsWith] at hoo
      | cons d rest2 =>
        by_cases hc : c = 123
        · by_cases hd : d = 123
          · simp only [jinjaRenderF]
            rw [if_pos hc, if_pos hd, splitClose_none 125 125 rest2
              (containsSeq_false_tail (containsSeq_false_tail hcc))]
          · by_cases hd2 : d = 35
            · exfalso
              have hh := containsSeq_false_head hcm
              simp only [startsWith] at hh
              rw [if_pos hc.symm, if_pos hd2.symm] at hh
              cases hh
            · by_cases hd3 : d = 37
              · exfalso
                have hh := containsSeq_false_head hct
                simp only [startsWith] at hh
                rw [if_pos hc.symm, if_pos hd3.symm] at hh
                cases hh
              · have hrest : containsSeq [123, 123] (d :: rest2) = true := by
                  rw [containsSeq, Bool.or_eq_true] at hoo
                  rcases hoo with hoo | hoo
                  · exfalso
                    simp only [startsWith] at hoo
                    rw [if_pos hc.symm] at hoo
                    by_cases hdd : (123 : Nat) = d
                    · exact hd hdd.symm
                    · rw [if_neg hdd] at hoo
                      cases hoo
                  · exact hoo
                simp only [jinjaRenderF]
                rw [if_pos hc, if_neg hd, if_neg hd2, if_neg hd3,
                  ih (d :: rest2)
                    (by simp only [List.length_cons] at hf ⊢; omega) hrest
                    (containsSeq_false_tail hcc) (containsSeq_false_tail hcm)
                    (containsSeq_false_tail hct)]
                rfl
        · have hrest : containsSeq [123, 123] (d :: rest2) = true := by
            rw [containsSeq, Bool.or_eq_true] at hoo
            rcases hoo with hoo | hoo
            · exfalso
              simp only [startsWith] at hoo
              rw [if_neg (fun hh => hc hh.symm)] at hoo
              cases hoo
            · exact hoo
          simp only [jinjaRenderF]
          rw [if_neg hc,
            ih (d :: rest2) (by simp only [List.length_cons] at hf ⊢; omega) hrest
              (containsSeq_false_tail hcc) (containsSeq_false_tail hcm)
              (containsSeq_false_tail hct)]
          rfl

/-! ### Claim theorems -/

/-- C1.  Determinism of the whole run: the output of
`render_template_dir` — the full destination tree (relative paths,
bytes, permission bits) together with the `RenderResult` — is a function
of the template's file set and the context alone.  Filesystem
nondeterminism is the enumeration order of the walk, modelled as the
order of the input list: any two enumeration orders `l1 ~ l2` of a
template (whose files have pairwise distinct relative paths, as on a
real filesystem) give identical runs, so two runs into fresh
destinations produce byte-identical trees. -/
theorem render_template_dir_deterministic (tplRoot dstRoot : String)
    (wr : List String → Bool) (ctx : Ctx) {l1 l2 : List FileEntry}
    (hd : allDiff (l1.map canonKey) = true) (hp : l1.Perm l2) :
    render_template_dir tplRoot dstRoot wr l1 ctx =
      render_template_dir tplRoot dstRoot wr l2 ctx := by
  unfold render_template_dir iter_template_files
  rw [sortBy_eq_of_perm hd hp]

/-- Witness for C1: two enumeration orders of a two-file template give
the same run output. -/
theorem render_template_dir_deterministic_witness :
    allDiff ((([⟨["b.txt"], true, cp "hey", 420⟩,
      ⟨["a.txt"], true, cp "yo", 420⟩] : List FileEntry)).map canonKey) = true ∧
    ([⟨["b.txt"], true, cp "hey", 420⟩, ⟨["a.txt"], true, cp "yo", 420⟩] :
      List FileEntry).Perm
      [⟨["a.txt"], true, cp "yo", 420⟩, ⟨["b.txt"], true, cp "hey", 420⟩] ∧
    render_template_dir "t" "d" (fun _ => true)
      [⟨["b.txt"], true, cp "hey", 420⟩, ⟨["a.txt"], true, cp "yo", 420⟩] [] =
    render_template_dir "t" "d" (fun _ => true)
      [⟨["a.txt"], true, cp "yo", 420⟩, ⟨["b.txt"], true, cp "hey", 420⟩] [] :=
  ⟨by decide, by decide,
    render_template_dir_deterministic "t" "d" (fun _ => true) []
      (by decide) (by decide)⟩

/-- C3.  Deterministic enumeration order: `_iter_template_files` returns
exactly the template's leaf files (a permutation of the walked set), in
strictly ascending lexicographic order of their canonical forward-slash
relative-path strings, and its result is unchanged under any
permutation of the filesystem's native enumeration order. -/
theorem iter_template_files_spec (l : List FileEntry)
    (hd : allDiff (l.map canonKey) = true) :
    (iter_template_files l).Perm l ∧
      ((iter_template_files l).map canonKey).Pairwise
        (fun a b => lexLt a b = true) ∧
      ∀ l2 : List FileEntry, l2.Perm l →
        iter_template_files l2 = iter_template_files l := by
  refine ⟨sortBy_perm fileLe l, ?_, ?_⟩
  · rw [List.pairwise_map]
    exact (sortBy_strict hd).imp (fun h => h)
  · intro l2 hp
    exact sortBy_eq_of_perm (allDiff_perm hp.symm hd) hp

/-- Witness for C3: a three-file template enumerated in native order is
returned sorted by canonical path, independently of that order. -/
theorem iter_template_files_spec_witness :
    allDiff ((([⟨["b.txt"], true, [], 420⟩, ⟨["a", "z.txt"], true, [], 420⟩,
      ⟨["a.txt"], true, [], 420⟩] : List FileEntry)).map canonKey) = true ∧
    ((iter_template_files [⟨["b.txt"], true, [], 420⟩,
        ⟨["a", "z.txt"], true, [], 420⟩, ⟨["a.txt"], true, [], 420⟩]).Perm
      [⟨["b.txt"], true, [], 420⟩, ⟨["a", "z.txt"], true, [], 420⟩,
        ⟨["a.txt"], true, [], 420⟩] ∧
      ((iter_template_files [⟨["b.txt"], true, [], 420⟩,
        ⟨["a", "z.txt"], true, [], 420⟩,
        ⟨["a.txt"], true, [], 420⟩]).map canonKey).Pairwise
        (fun a b => lexLt a b = true) ∧
      ∀ l2 : List FileEntry,
        l2.Perm [⟨["b.txt"], true, [], 420⟩, ⟨["a", "z.txt"], true, [], 420⟩,
          ⟨["a.txt"], true, [], 420⟩] →
        iter_template_files l2 =
          iter_template_files [⟨["b.txt"], true, [], 420⟩,
            ⟨["a", "z.txt"], true, [], 420⟩, ⟨["a.txt"], true, [], 420⟩]) :=
  ⟨by decide, iter_template_files_spec _ (by decide)⟩

/-- C4.  Abort on first error: if, in sorted order, every file before
`f` processes and writes successfully and `f` fails (unreadable source,
substitution failure, or destination write failure), the run returns an
error — no `RenderResult` is produced — and the files written are
exactly the outputs of the files before `f`: nothing at or after `f` is
ever written, and nothing already written is cleaned up. -/
theorem render_abort_on_first_error {tplRoot dstRoot : String}
    {wr : List String → Bool} {ctx : Ctx}
    {tpl pre post : List FileEntry} {f : FileEntry}
    (hs : iter_template_files tpl = pre ++ f :: post)
    (hpre : (pre.all fun e => (processFile tplRoot ctx e).isOk && wr e.path) = true)
    (hf : ¬ ((processFile tplRoot ctx f).isOk && wr f.path) = true) :
    ∃ err ws, render_template_dir tplRoot dstRoot wr tpl ctx = .error (err, ws) ∧
      List.Forall₂ (ProcOk tplRoot ctx wr) pre ws ∧
      ws.map Written.path = pre.map FileEntry.path := by
  obtain ⟨err, ws, h1, h2⟩ := render_aborts hs hpre hf
  exact ⟨err, ws, h1, h2, forall2_map_path h2⟩

/-- Witness for C4: `b.txt` (second in sorted order) hits a missing
variable; `a.txt` is written, `c.txt` never is. -/
theorem render_abort_on_first_error_witness :
    (iter_template_files [⟨["c.txt"], true, cp "c", 420⟩,
        ⟨["b.txt"], true, cp "\x7b\x7b owner \x7d\x7d", 420⟩,
        ⟨["a.txt"], true, cp "a", 420⟩] =
      [⟨["a.txt"], true, cp "a", 420⟩] ++
        ⟨["b.txt"], true, cp "\x7b\x7b owner \x7d\x7d", 420⟩ ::
          [⟨["c.txt"], true, cp "c", 420⟩]) ∧
    (([⟨["a.txt"], true, cp "a", 420⟩] : List FileEntry).all fun e =>
      (processFile "t" [] e).isOk && (fun _ => true) e.path) = true ∧
    ¬ ((processFile "t" []
        ⟨["b.txt"], true, cp "\x7b\x7b owner \x7d\x7d", 420⟩).isOk &&
          (fun _ => true) [("b.txt" : String)]) = true ∧
    (∃ err ws, render_template_dir "t" "d" (fun _ => true)
        [⟨["c.txt"], true, cp "c", 420⟩,
          ⟨["b.txt"], true, cp "\x7b\x7b owner \x7d\x7d", 420⟩,
          ⟨["a.txt"], true, cp "a", 420⟩] [] = .error (err, ws) ∧
      List.Forall₂ (ProcOk "t" [] (fun _ => true))
        [⟨["a.txt"], true, cp "a", 420⟩] ws ∧
      ws.map Written.path = [⟨["a.txt"], true, cp "a", 420⟩].map FileEntry.path) :=
  ⟨by decide, by decide, by decide,
    @render_abort_on_first_error "t" "d" (fun _ => true) []
      [⟨["c.txt"], true, cp "c", 420⟩,
        ⟨["b.txt"], true, cp "\x7b\x7b owner \x7d\x7d", 420⟩,
        ⟨["a.txt"], true, cp "a", 420⟩]
      [⟨["a.txt"], true, cp "a", 420⟩]
      [⟨["c.txt"], true, cp "c", 420⟩]
      ⟨["b.txt"], true, cp "\x7b\x7b owner \x7d\x7d", 420⟩
      (by decide) (by decide) (by decide)⟩

/-- C2.  Strict substitution: when a marker-containing UTF-8 text file
references a variable `k` absent from the context, the whole run fails
with a `RenderError` naming that file's relative path and carrying the
missing key as the underlying cause (`raise ... from e`), no empty
string is substituted, and nothing is written at that file's
destination path: the written files correspond exactly to the earlier
files, none sharing its path. -/
theorem render_strict_substitution {tplRoot dstRoot : String}
    {wr : List String → Bool} {ctx : Ctx}
    {tpl pre post : List FileEntry} {e : FileEntry} {us k : List Nat}
    (hd : allDiff (tpl.map canonKey) = true)
    (hs : iter_template_files tpl = pre ++ e :: post)
    (hpre : (pre.all fun a => (processFile tplRoot ctx a).isOk && wr a.path) = true)
    (hrd : e.readable = true)
    (hdec : utf8Decode e.content = some us)
    (hmk : hasMarker (univNewlines us) = true)
    (hje : jinjaRender ctx (univNewlines us) = .error (.undefinedVar k))
    (hnk : ctxLookup k ctx = none) :
    ∃ ws, render_template_dir tplRoot dstRoot wr tpl ctx =
        .error (.renderError (canonPath e.path) (.undefinedVar k), ws) ∧
      List.Forall₂ (ProcOk tplRoot ctx wr) pre ws ∧
      ∀ w ∈ ws, w.path ≠ e.path := by
  obtain ⟨ws, h1, h2⟩ :=
    render_error_at hs hpre (processFile_subst_error hrd hdec hmk hje)
  refine ⟨ws, h1, h2, ?_⟩
  intro w hw
  obtain ⟨a, ha1, ha2⟩ := forall2_mem_left h2 w hw
  have hdsorted : allDiff ((iter_template_files tpl).map canonKey) = true :=
    allDiff_perm (sortBy_perm fileLe tpl).symm hd
  have hkeys := keys_pairwise_of_allDiff hdsorted
  rw [hs, List.pairwise_append] at hkeys
  have hne : canonKey a ≠ canonKey e :=
    hkeys.2.2 a ha1 e (List.mem_cons_self _ _)
  rw [(processFile_ok_fields ha2.1).2.1]
  intro hpath
  apply hne
  show cp (canonPath a.path) = cp (canonPath e.path)
  rw [hpath]

/-- Witness for C2: the spec's own example — context with only
`repo_name`, file referencing both `repo_name` and `owner`. -/
theorem render_strict_substitution_witness :
    (allDiff (([⟨["README.md"], true,
        cp "Name: \x7b\x7b repo_name \x7d\x7d\nOwner: \x7b\x7b owner \x7d\x7d\n",
        420⟩] : List FileEntry).map canonKey) = true) ∧
    (utf8Decode (cp "Name: \x7b\x7b repo_name \x7d\x7d\nOwner: \x7b\x7b owner \x7d\x7d\n") =
      some (cp "Name: \x7b\x7b repo_name \x7d\x7d\nOwner: \x7b\x7b owner \x7d\x7d\n")) ∧
    (jinjaRender [(cp "repo_name", cp "demo")]
      (univNewlines (cp "Name: \x7b\x7b repo_name \x7d\x7d\nOwner: \x7b\x7b owner \x7d\x7d\n")) =
      .error (.undefinedVar (cp "owner"))) ∧
    (ctxLookup (cp "owner") [(cp "repo_name", cp "demo")] = none) ∧
    (∃ ws, render_template_dir "t" "d" (fun _ => true)
        [⟨["README.md"], true,
          cp "Name: \x7b\x7b repo_name \x7d\x7d\nOwner: \x7b\x7b owner \x7d\x7d\n", 420⟩]
        [(cp "repo_name", cp "demo")] =
        .error (.renderError (canonPath ["README.md"]) (.undefinedVar (cp "owner")), ws) ∧
      List.Forall₂ (ProcOk "t" [(cp "repo_name", cp "demo")] (fun _ => true)) [] ws ∧
      ∀ w ∈ ws, w.path ≠ [("README.md" : String)]) :=
  ⟨by decide, by decide, by rfl, by decide,
    @render_strict_substitution "t" "d" (fun _ => true)
      [(cp "repo_name", cp "demo")]
      [⟨["README.md"], true,
        cp "Name: \x7b\x7b repo_name \x7d\x7d\nOwner: \x7b\x7b owner \x7d\x7d\n", 420⟩]
      [] []
      ⟨["README.md"], true,
        cp "Name: \x7b\x7b repo_name \x7d\x7d\nOwner: \x7b\x7b owner \x7d\x7d\n", 420⟩
      (cp "Name: \x7b\x7b repo_name \x7d\x7d\nOwner: \x7b\x7b owner \x7d\x7d\n")
      (cp "owner")
      (by decide) (by decide) (by decide) (by decide) (by decide) (by decide)
      (by rfl) (by decide)⟩

/-- C9.  Unreadable source file: if every earlier file succeeds and file
`e` cannot be read, the run aborts with the uncaught read failure, whose
reported path is the absolute source path `tplRoot/rel` — it embeds the
file's canonical relative path — and only the files before `e` have
been written. -/
theorem render_unreadable_aborts {tplRoot dstRoot : String}
    {wr : List String → Bool} {ctx : Ctx}
    {tpl pre post : List FileEntry} {e : FileEntry}
    (hs : iter_template_files tpl = pre ++ e :: post)
    (hpre : (pre.all fun a => (processFile tplRoot ctx a).isOk && wr a.path) = true)
    (hur : e.readable = false) :
    ∃ ws, render_template_dir tplRoot dstRoot wr tpl ctx =
        .error (.osError (tplRoot ++ "/" ++ canonPath e.path), ws) ∧
      List.Forall₂ (ProcOk tplRoot ctx wr) pre ws :=
  render_error_at hs hpre (processFile_unreadable hur)

/-- Witness for C9: a template whose second file is unreadable. -/
theorem render_unreadable_aborts_witness :
    (iter_template_files [⟨["a.txt"], true, cp "a", 420⟩,
        ⟨["b.txt"], false, cp "b", 420⟩] =
      [⟨["a.txt"], true, cp "a", 420⟩] ++
        ⟨["b.txt"], false, cp "b", 420⟩ :: []) ∧
    (([⟨["a.txt"], true, cp "a", 420⟩] : List FileEntry).all fun a =>
      (processFile "t" [] a).isOk && (fun _ => true) a.path) = true ∧
    (∃ ws, render_template_dir "t" "d" (fun _ => true)
        [⟨["a.txt"], true, cp "a", 420⟩, ⟨["b.txt"], false, cp "b", 420⟩] [] =
        .error (.osError ("t" ++ "/" ++ canonPath ["b.txt"]), ws) ∧
      List.Forall₂ (ProcOk "t" [] (fun _ => true))
        [⟨["a.txt"], true, cp "a", 420⟩] ws) :=
  ⟨by decide, by decide,
    @render_unreadable_aborts "t" "d" (fun _ => true) []
      [⟨["a.txt"], true, cp "a", 420⟩, ⟨["b.txt"], false, cp "b", 420⟩]
      [⟨["a.txt"], true, cp "a", 420⟩] []
      ⟨["b.txt"], false, cp "b", 420⟩
      (by decide) (by decide) (by decide)⟩

/-- C5.  Untouched passthrough: in a successful run, every file that is
binary (not valid UTF-8) or marker-free text is materialised with
destination bytes exactly equal to its source bytes (NUL bytes, empty
content and CRLF line endings included), with the source permission
bits, and with outcome `copied` — it never goes through the
substitution engine. -/
theorem render_passthrough_untouched {tplRoot dstRoot : String}
    {wr : List String → Bool} {ctx : Ctx} {tpl : List FileEntry}
    {res : RenderResult} {ws : List Written} {e : FileEntry}
    (hok : render_template_dir tplRoot dstRoot wr tpl ctx = .ok (res, ws))
    (he : e ∈ tpl)
    (hcl : is_binary_content e.content = true ∨
      hasMarker (decodedText e.content) = false) :
    ∃ w ∈ ws, w.path = e.path ∧ w.bytes = e.content ∧ w.perm = e.perm ∧
      w.outcome = .copied := by
  obtain ⟨hrun, -⟩ := render_ok_runFiles hok
  have hmem : e ∈ iter_template_files tpl :=
    (sortBy_perm fileLe tpl).mem_iff.2 he
  obtain ⟨w, hw1, hw2, -⟩ :=
    forall2_mem_right (runFiles_ok_forall2 hrun) e hmem
  refine ⟨w, hw1, ?_⟩
  rw [processFile_copied hw2 hcl]
  exact ⟨rfl, rfl, rfl, rfl⟩

/-- Witness for C5: a successful run containing a binary file and a
marker-free CRLF text file; the CRLF file passes through byte-exact. -/
theorem render_passthrough_untouched_witness :
    (render_template_dir "t" "d" (fun _ => true)
        [⟨["crlf.txt"], true, cp "line1\r\nline2\r\n", 420⟩,
          ⟨["logo.bin"], true, [0xFF, 0x00, 0x80], 493⟩]
        [] =
      .ok (⟨0, 2⟩, [⟨["crlf.txt"], cp "line1\r\nline2\r\n", 420, .copied⟩,
        ⟨["logo.bin"], [0xFF, 0x00, 0x80], 493, .copied⟩])) ∧
    (⟨["crlf.txt"], true, cp "line1\r\nline2\r\n", 420⟩ : FileEntry) ∈
      ([⟨["crlf.txt"], true, cp "line1\r\nline2\r\n", 420⟩,
        ⟨["logo.bin"], true, [0xFF, 0x00, 0x80], 493⟩] : List FileEntry) ∧
    (hasMarker (decodedText (cp "line1\r\nline2\r\n")) = false) ∧
    (∃ w ∈ [⟨["crlf.txt"], cp "line1\r\nline2\r\n", 420, .copied⟩,
        ⟨["logo.bin"], [0xFF, 0x00, 0x80], 493, .copied⟩],
      Written.path w = ["crlf.txt"] ∧
      Written.bytes w = cp "line1\r\nline2\r\n" ∧ Written.perm w = 420 ∧
      Written.outcome w = .copied) := by
  refine ⟨by rfl, by decide, by decide, ?_⟩
  obtain ⟨w, hw1, hw2⟩ :=
    @render_passthrough_untouched "t" "d" (fun _ => true) []
      [⟨["crlf.txt"], true, cp "line1\r\nline2\r\n", 420⟩,
        ⟨["logo.bin"], true, [0xFF, 0x00, 0x80], 493⟩]
      ⟨0, 2⟩
      [⟨["crlf.txt"], cp "line1\r\nline2\r\n", 420, .copied⟩,
        ⟨["logo.bin"], [0xFF, 0x00, 0x80], 493, .copied⟩]
      ⟨["crlf.txt"], true, cp "line1\r\nline2\r\n", 420⟩
      (by rfl) (by decide) (by decide)
  exact ⟨w, hw1, hw2⟩

/-- C8.  Counting: a successful run returns `rendered_files` equal to
the number of template files that are valid UTF-8 text containing at
least one marker, and `copied_files` equal to the number of all
remaining files (binary plus marker-free text). -/
theorem render_result_counts {tplRoot dstRoot : String}
    {wr : List String → Bool} {ctx : Ctx} {tpl : List FileEntry}
    {res : RenderResult} {ws : List Written}
    (hok : render_template_dir tplRoot dstRoot wr tpl ctx = .ok (res, ws)) :
    res.rendered_files = tpl.countP (fun e => isRenderedFile e) ∧
      res.copied_files = tpl.countP (fun e => !isRenderedFile e) := by
  obtain ⟨hrun, hres⟩ := render_ok_runFiles hok
  obtain ⟨h1, h2⟩ := forall2_counts (runFiles_ok_forall2 hrun)
  subst hres
  constructor
  · rw [show (⟨countRendered ws, countCopied ws⟩ : RenderResult).rendered_files =
      countRendered ws from rfl, h1]
    exact (sortBy_perm fileLe tpl).countP_eq _
  · rw [show (⟨countRendered ws, countCopied ws⟩ : RenderResult).copied_files =
      countCopied ws from rfl, h2]
    exact (sortBy_perm fileLe tpl).countP_eq _

/-- Witness for C8: a successful run over two marker-containing files
and three marker-free files (one of them binary) reports
renderedFiles=2 and copiedFiles=3. -/
theorem render_result_counts_witness :
    (render_template_dir "t" "d" (fun _ => true)
        [⟨["a.txt"], true, cp "A \x7b\x7b x \x7d\x7d", 420⟩,
          ⟨["b.txt"], true, cp "plain b", 420⟩,
          ⟨["c.txt"], true, cp "\x7b# note #\x7dC", 420⟩,
          ⟨["d.txt"], true, cp "d text", 420⟩,
          ⟨["e.bin"], true, [0xFF], 493⟩]
        [(cp "x", cp "1")] =
      .ok (⟨2, 3⟩, [⟨["a.txt"], cp "A 1", 420, .rendered⟩,
        ⟨["b.txt"], cp "plain b", 420, .copied⟩,
        ⟨["c.txt"], cp "C", 420, .rendered⟩,
        ⟨["d.txt"], cp "d text", 420, .copied⟩,
        ⟨["e.bin"], [0xFF], 493, .copied⟩])) ∧
    ((⟨2, 3⟩ : RenderResult).rendered_files =
      ([⟨["a.txt"], true, cp "A \x7b\x7b x \x7d\x7d", 420⟩,
        ⟨["b.txt"], true, cp "plain b", 420⟩,
        ⟨["c.txt"], true, cp "\x7b# note #\x7dC", 420⟩,
        ⟨["d.txt"], true, cp "d text", 420⟩,
        ⟨["e.bin"], true, [0xFF], 493⟩] : List FileEntry).countP
        (fun e => isRenderedFile e) ∧
      (⟨2, 3⟩ : RenderResult).copied_files =
      ([⟨["a.txt"], true, cp "A \x7b\x7b x \x7d\x7d", 420⟩,
        ⟨["b.txt"], true, cp "plain b", 420⟩,
        ⟨["c.txt"], true, cp "\x7b# note #\x7dC", 420⟩,
        ⟨["d.txt"], true, cp "d text", 420⟩,
        ⟨["e.bin"], true, [0xFF], 493⟩] : List FileEntry).countP
        (fun e => !isRenderedFile e)) :=
  ⟨by rfl,
    @render_result_counts "t" "d" (fun _ => true) [(cp "x", cp "1")]
      [⟨["a.txt"], true, cp "A \x7b\x7b x \x7d\x7d", 420⟩,
        ⟨["b.txt"], true, cp "plain b", 420⟩,
        ⟨["c.txt"], true, cp "\x7b# note #\x7dC", 420⟩,
        ⟨["d.txt"], true, cp "d text", 420⟩,
        ⟨["e.bin"], true, [0xFF], 493⟩]
      ⟨2, 3⟩
      [⟨["a.txt"], cp "A 1", 420, .rendered⟩,
        ⟨["b.txt"], cp "plain b", 420, .copied⟩,
        ⟨["c.txt"], cp "C", 420, .rendered⟩,
        ⟨["d.txt"], cp "d text", 420, .copied⟩,
        ⟨["e.bin"], [0xFF], 493, .copied⟩]
      (by rfl)⟩

/-- C6.  Content-based classification: `_is_binary_file` reports Text
(returns `false`) exactly when the whole byte content is a valid UTF-8
encoding — an invalid byte anywhere forces Binary — and the empty file
is Text.  The classifier is a function of the byte content alone: no
extension or metadata enters the model. -/
theorem is_binary_content_spec :
    (∀ content : List Nat,
      is_binary_content content = false ↔ ValidUtf8 content) ∧
      is_binary_content [] = false := by
  refine ⟨fun content => ⟨fun h => ?_, fun h => ?_⟩, rfl⟩
  · rw [is_binary_content] at h
    cases hd : utf8Decode content with
    | none => rw [hd] at h; cases h
    | some us => exact decode_sound content.length content (le_refl _) us hd
  · obtain ⟨us, hus⟩ := valid_decode h
    rw [is_binary_content, hus]
    rfl

theorem processFile_rendered {tR : String} {ctx : Ctx} {e : FileEntry}
    {w : Written} (h : processFile tR ctx e = .ok w)
    (hr : isRenderedFile e = true) :
    ∃ us out, utf8Decode e.content = some us ∧
      jinjaRender ctx (univNewlines us) = .ok out ∧
      w = ⟨e.path, utf8Encode out, e.perm, .rendered⟩ := by
  unfold processFile at h
  split at h
  · cases h
  · split at h
    · rename_i hdec
      rw [isRenderedFile, is_binary_content, hdec] at hr
      simp at hr
    · rename_i us hdec
      split at h
      · split at h
        · cases h
        · rename_i out hout
          injection h with h1
          exact ⟨us, out, hdec, hout, h1.symm⟩
      · rename_i hmk
        rw [isRenderedFile, decodedText_eq hdec] at hr
        rw [Bool.not_eq_true] at hmk
        rw [hmk] at hr
        simp at hr

/-- C7 counterexample.  The claim "every marker-containing file that
renders successfully is written with LF-only line endings" fails on the
code: with context `x = "a\x0d\nb"` a rendered file's destination bytes
contain a carriage return (byte 13), because only the *source* text is
newline-translated on read; substituted values are inserted verbatim
and `write_text(..., newline="\n")` performs no translation. -/
theorem render_lf_only_cex :
    render_template_dir "t" "d" (fun _ => true)
        [⟨["a.txt"], true, cp "X: \x7b\x7b x \x7d\x7d", 420⟩]
        [(cp "x", cp "a\r\nb")] =
      .ok (⟨1, 0⟩, [⟨["a.txt"], cp "X: a\r\nb", 420, .rendered⟩]) ∧
    (13 : Nat) ∈ cp "X: a\r\nb" ∧
    hasMarker (decodedText (cp "X: \x7b\x7b x \x7d\x7d")) = true :=
  ⟨rfl, by decide, by decide⟩

/-- C7 (amended).  LF normalization scope: in a successful run, provided
the substituted context values contain no carriage returns, every
marker-containing UTF-8 text file is materialised with no CR byte (LF
line endings only) regardless of the source file's line-ending
convention; and the normalization applies only to substituted files —
binary or marker-free files keep their source bytes (CRLF included)
exactly. -/
theorem render_lf_normalization_amended {tplRoot dstRoot : String}
    {wr : List String → Bool} {ctx : Ctx} {tpl : List FileEntry}
    {res : RenderResult} {ws : List Written} {e : FileEntry}
    (hok : render_template_dir tplRoot dstRoot wr tpl ctx = .ok (res, ws))
    (he : e ∈ tpl)
    (hctx : ∀ kv ∈ ctx, ¬ (13 ∈ kv.2)) :
    (isRenderedFile e = true → ∃ w ∈ ws, w.path = e.path ∧
      w.outcome = .rendered ∧ ¬ (13 ∈ w.bytes)) ∧
    (is_binary_content e.content = true ∨
      hasMarker (decodedText e.content) = false →
      ∃ w ∈ ws, w.path = e.path ∧ w.bytes = e.content) := by
  obtain ⟨hrun, -⟩ := render_ok_runFiles hok
  have hmem : e ∈ iter_template_files tpl :=
    (sortBy_perm fileLe tpl).mem_iff.2 he
  obtain ⟨w, hw1, hw2, -⟩ :=
    forall2_mem_right (runFiles_ok_forall2 hrun) e hmem
  constructor
  · intro hr
    obtain ⟨us, out, hdec, hout, hwe⟩ := processFile_rendered hw2 hr
    subst hwe
    refine ⟨_, hw1, rfl, rfl, ?_⟩
    intro hcr
    rw [mem_utf8Encode_cr] at hcr
    rcases jinjaRenderF_mem ((univNewlines us).length + 1) (univNewlines us)
      out hout 13 hcr with hsrc | ⟨kv, hkv1, hkv2⟩
    · exact univNewlines_no_cr us hsrc
    · exact hctx kv hkv1 hkv2
  · intro hcl
    refine ⟨w, hw1, ?_⟩
    rw [processFile_copied hw2 hcl]
    exact ⟨rfl, rfl⟩

/-- Witness for C7 (amended): a CRLF source file with a marker and a
CR-free context renders to LF-only destination bytes. -/
theorem render_lf_normalization_amended_witness :
    (render_template_dir "t" "d" (fun _ => true)
        [⟨["a.txt"], true, cp "A: \x7b\x7b x \x7d\x7d\r\nB\r\n", 420⟩]
        [(cp "x", cp "demo")] =
      .ok (⟨1, 0⟩, [⟨["a.txt"], cp "A: demo\nB\n", 420, .rendered⟩])) ∧
    (∀ kv ∈ ([(cp "x", cp "demo")] : Ctx), ¬ ((13 : Nat) ∈ kv.2)) ∧
    (isRenderedFile ⟨["a.txt"], true, cp "A: \x7b\x7b x \x7d\x7d\r\nB\r\n", 420⟩ = true) ∧
    (∃ w ∈ [⟨["a.txt"], cp "A: demo\nB\n", 420, .rendered⟩],
      Written.path w = ["a.txt"] ∧ Written.outcome w = .rendered ∧
        ¬ ((13 : Nat) ∈ Written.bytes w)) := by
  refine ⟨by rfl, by decide, by decide, ?_⟩
  obtain ⟨w, hw1, hw2, hw3, hw4⟩ :=
    (@render_lf_normalization_amended "t" "d" (fun _ => true)
      [(cp "x", cp "demo")]
      [⟨["a.txt"], true, cp "A: \x7b\x7b x \x7d\x7d\r\nB\r\n", 420⟩]
      ⟨1, 0⟩
      [⟨["a.txt"], cp "A: demo\nB\n", 420, .rendered⟩]
      ⟨["a.txt"], true, cp "A: \x7b\x7b x \x7d\x7d\r\nB\r\n", 420⟩
      (by rfl) (by decide) (by decide)).1 (by decide)
  exact ⟨w, hw1, hw2, hw3, hw4⟩

/-- C10 counterexample.  The claim "a file containing an unmatched
opening delimiter (`\x7b\x7b` with no `\x7d\x7d`) fails the run with a
RenderError" is false on the code: the file `\x7b# \x7b\x7b #\x7d`
contains `\x7b\x7b` and no `\x7d\x7d`, yet the unmatched delimiter sits
inside a comment marker, so the run succeeds (rendering it to empty
output) instead of failing. -/
theorem marker_detection_cex :
    containsSeq [123, 123] (decodedText (cp "\x7b# \x7b\x7b #\x7d")) = true ∧
    containsSeq [125, 125] (decodedText (cp "\x7b# \x7b\x7b #\x7d")) = false ∧
    render_template_dir "t" "d" (fun _ => true)
        [⟨["c.txt"], true, cp "\x7b# \x7b\x7b #\x7d", 420⟩] [] =
      .ok (⟨1, 0⟩, [⟨["c.txt"], [], 420, .rendered⟩]) :=
  ⟨by decide, by decide, rfl⟩

/-- C10 (amended).  Opening-delimiter-only detection: a valid UTF-8 text
file is routed through the substitution engine (never copied byte-exact)
exactly when its text contains `\x7b\x7b`, `\x7b%` or `\x7b#`; and a
file whose text contains `\x7b\x7b` but no closing `\x7d\x7d` — and no
comment or control opener that could swallow it — fails the run with a
RenderError from malformed template syntax. -/
theorem marker_detection_amended {tplRoot dstRoot : String}
    {wr : List String → Bool} {ctx : Ctx}
    {tpl pre post : List FileEntry} {e : FileEntry} {us : List Nat}
    (hs : iter_template_files tpl = pre ++ e :: post)
    (hpre : (pre.all fun a => (processFile tplRoot ctx a).isOk && wr a.path) = true)
    (hrd : e.readable = true)
    (hdec : utf8Decode e.content = some us) :
    (hasMarker (univNewlines us) = false ↔
      processFile tplRoot ctx e = .ok ⟨e.path, e.content, e.perm, .copied⟩) ∧
    (containsSeq [123, 123] (univNewlines us) = true →
      containsSeq [125, 125] (univNewlines us) = false →
      containsSeq [123, 35] (univNewlines us) = false →
      containsSeq [123, 37] (univNewlines us) = false →
      ∃ ws, render_template_dir tplRoot dstRoot wr tpl ctx =
          .error (.renderError (canonPath e.path) .malformed, ws) ∧
        List.Forall₂ (ProcOk tplRoot ctx wr) pre ws) := by
  constructor
  · constructor
    · intro hmk
      unfold processFile
      simp [hrd, hdec, hmk]
    · intro h
      by_contra hm
      rw [Bool.not_eq_false] at hm
      unfold processFile at h
      simp only [hrd, Bool.true_eq_false, if_false, hdec, hm, if_true] at h
      split at h
      · cases h
      · injection h with h1
        have : Outcome.rendered = Outcome.copied := congrArg Written.outcome h1
        cases this
  · intro h1 h2 h3 h4
    have hmk : hasMarker (univNewlines us) = true := by
      rw [hasMarker, h1]
      rfl
    have hje : jinjaRender ctx (univNewlines us) = .error .malformed := by
      rw [jinjaRender]
      exact jinjaRenderF_unmatched _ _ (Nat.lt_succ_self _) h1 h2 h3 h4
    exact render_error_at hs hpre (processFile_subst_error hrd hdec hmk hje)

/-- Witness for C10 (amended): a file whose text is `see \x7b\x7b x`
(unmatched opening delimiter, no comment or control opener) fails the
run with a malformed-marker RenderError; a marker-free file is copied. -/
theorem marker_detection_amended_witness :
    (iter_template_files [⟨["u.txt"], true, cp "see \x7b\x7b x", 420⟩] =
      [] ++ ⟨["u.txt"], true, cp "see \x7b\x7b x", 420⟩ :: []) ∧
    (utf8Decode (cp "see \x7b\x7b x") = some (cp "see \x7b\x7b x")) ∧
    (containsSeq [123, 123] (univNewlines (cp "see \x7b\x7b x")) = true) ∧
    ((hasMarker (univNewlines (cp "see \x7b\x7b x")) = false ↔
      processFile "t" [] ⟨["u.txt"], true, cp "see \x7b\x7b x", 420⟩ =
        .ok ⟨["u.txt"], cp "see \x7b\x7b x", 420, .copied⟩) ∧
      (containsSeq [123, 123] (univNewlines (cp "see \x7b\x7b x")) = true →
        containsSeq [125, 125] (univNewlines (cp "see \x7b\x7b x")) = false →
        containsSeq [123, 35] (univNewlines (cp "see \x7b\x7b x")) = false →
        containsSeq [123, 37] (univNewlines (cp "see \x7b\x7b x")) = false →
        ∃ ws, render_template_dir "t" "d" (fun _ => true)
            [⟨["u.txt"], true, cp "see \x7b\x7b x", 420⟩] [] =
            .error (.renderError (canonPath ["u.txt"]) .malformed, ws) ∧
          List.Forall₂ (ProcOk "t" [] (fun _ => true)) [] ws)) :=
  ⟨by decide, by decide, by decide,
    @marker_detection_amended "t" "d" (fun _ => true) []
      [⟨["u.txt"], true, cp "see \x7b\x7b x", 420⟩]
      [] []
      ⟨["u.txt"], true, cp "see \x7b\x7b x", 420⟩
      (cp "see \x7b\x7b x")
      (by decide) (by decide) (by decide) (by decide)⟩

end Builder
